import Mathlib

/-!
Verification of the ingestion-and-retrieval pipeline of the
`ambedkar_chatbot` repository, as a shallow embedding in Lean 4.

Each definition below is translated from a named function of the Python
source (`src/ambedkar_chatbot/...`); floats are modelled as rationals,
byte/character data as `List Char`, and the external embedding service as
an explicit function parameter.
-/

namespace AmbedkarChatbot

/-! ## Vector store scoring — `vector_store.py`, `VectorStore._score_from_distance`

Python: `return max(min(1 - distance / 2, 1.0), 0.0)`.  Floats are modelled
as rationals. -/

def score_from_distance (distance : ℚ) : ℚ :=
  max (min (1 - distance / 2) 1) 0

/-! ## Effective `top_k` — `vector_store.py`, `VectorStore.similarity_search`

Python line 53: `top_k = top_k or self.cfg.top_k`.  A caller may pass
`None` (modelled `none`) or an integer; Python's `or` replaces any *falsy*
value — `None` and `0` alike — with the configured default. -/

def effective_top_k (topK : Option Int) (cfgTopK : Int) : Int :=
  match topK with
  | none => cfgTopK
  | some k => if k = 0 then cfgTopK else k

/-- Number of results returned by `similarity_search`: Annoy's
`get_nns_by_vector` returns `min n itemCount` neighbours for a store
holding `itemCount` items (and a non-positive `n` yields none). -/
def search_result_count (topK : Option Int) (cfgTopK : Int) (itemCount : Nat) : Nat :=
  min (effective_top_k topK cfgTopK).toNat itemCount

/-! ## Ingestion outcome — `ingest.py`, `ingest_corpus` (lines 116–127)

Python:
```
chunks = list(_iter_pdf_chunks(cfg))
if not chunks:
    console.print("[yellow]No textual content extracted from PDFs.")
    return
...
vectors = embedder.embed_texts([chunk.content for chunk in chunks])
if not vectors:
    raise RuntimeError("Embedding generation returned no vectors.")
... build index, write artifacts ...
```
The model takes the chunk list and the embedding result as inputs and
reports the control-flow outcome together with which artifacts were
written.  The constructor `raisedEmptyCorpusError` exists only so that the
spec's claimed behaviour is expressible; the code never produces it. -/

structure Chunk where
  chunk_id : String
  content : String
  source : String
  page : Nat
deriving DecidableEq, Repr

inductive IngestOutcome
  | returnedSilently
  | raisedEmptyCorpusError
  | raisedNoVectors
  | built (n : Nat)
deriving DecidableEq, Repr

structure WrittenArtifacts where
  index : Bool
  metadata : Bool
  info : Bool
deriving DecidableEq, Repr

def ingest_corpus (chunks : List Chunk) (vectors : List (List ℚ)) :
    IngestOutcome × WrittenArtifacts :=
  if chunks.isEmpty then
    (.returnedSilently, ⟨false, false, false⟩)
  else if vectors.isEmpty then
    (.raisedNoVectors, ⟨false, false, false⟩)
  else
    (.built chunks.length, ⟨true, true, true⟩)

/-! ## Embedding retry loop — `embedding.py`, `EmbeddingClient.embed_texts`
(lines 28–47), the per-batch `while True` loop.

The external service is modelled as a function from the call index (the
value of `attempt` at call time) to a tagged outcome.  The loop records
every backoff delay it sleeps (`delay = min(2 ** attempt, 30)`) and the
total number of service calls made. -/

inductive SvcResult
  | ok (vecs : List (List ℚ))
  | rateLimit
  | timeout
  | apiError
deriving DecidableEq, Repr

inductive BatchOutcome
  | ok (vecs : List (List ℚ))
  | rateLimitExceeded
  | serviceError
deriving DecidableEq, Repr

structure RetryTrace where
  outcome : BatchOutcome
  calls : Nat
  delays : List Nat
deriving DecidableEq, Repr

/-- The `while True` loop body for one batch, entered with counter
`attempt`.  On `RateLimitError`/`Timeout` it sleeps `min(2^attempt, 30)`,
increments `attempt`, and raises once `attempt > 5`; on `APIError` it
raises immediately; on success it returns the vectors. -/
def retryBatch (svc : Nat → SvcResult) (attempt : Nat) : RetryTrace :=
  match svc attempt with
  | .ok vecs => { outcome := .ok vecs, calls := 1, delays := [] }
  | .apiError => { outcome := .serviceError, calls := 1, delays := [] }
  | .rateLimit =>
      let delay := min (2 ^ attempt) 30
      if attempt + 1 > 5 then
        { outcome := .rateLimitExceeded, calls := 1, delays := [delay] }
      else
        let t := retryBatch svc (attempt + 1)
        { outcome := t.outcome, calls := t.calls + 1, delays := delay :: t.delays }
  | .timeout =>
      let delay := min (2 ^ attempt) 30
      if attempt + 1 > 5 then
        { outcome := .rateLimitExceeded, calls := 1, delays := [delay] }
      else
        let t := retryBatch svc (attempt + 1)
        { outcome := t.outcome, calls := t.calls + 1, delays := delay :: t.delays }
termination_by 6 - attempt
decreasing_by all_goals omega

/-! ## Vector store load — `vector_store.py`, `VectorStore.__init__`
(lines 27–39)

Python checks that all three artifact files exist before reading anything,
then reads the manifest (`INDEX_INFO_FILE`) first, then loads the Annoy
index with the manifest's dimension, then reads the metadata store.  No
value read from one artifact is ever compared against another.  The model
records the sequence of artifact reads performed.  `corruptStore` exists
only so the spec's claimed cross-check failure is expressible; the code
never produces it. -/

structure Manifest where
  dimension : Nat
  embedding_model : String
  index_metric : String
  vector_count : Nat
deriving DecidableEq, Repr

/-- Physical content of a serialized Annoy index file: the dimension its
vectors were written with and the number of items. -/
structure IndexData where
  dim : Nat
  items : Nat
deriving DecidableEq, Repr

structure MetaRecord where
  int_id : Nat
  chunk_id : String
  source : String
  page : Nat
  content : String
deriving DecidableEq, Repr

structure ArtifactDir where
  indexFile : Option IndexData
  metadataFile : Option (List MetaRecord)
  infoFile : Option Manifest
deriving DecidableEq, Repr

inductive LoadError
  | artifactsMissing
  | corruptStore
deriving DecidableEq, Repr

inductive ReadEvent
  | readInfo
  | readIndex
  | readMetadata
deriving DecidableEq, Repr

structure LoadedStore where
  dimension : Nat
  embedding_model : String
  index : IndexData
  metadata : List MetaRecord
deriving DecidableEq, Repr

def vector_store_init (d : ArtifactDir) :
    List ReadEvent × Except LoadError LoadedStore :=
  match d.indexFile, d.metadataFile, d.infoFile with
  | some idx, some md, some mf =>
      ([.readInfo, .readIndex, .readMetadata],
       .ok { dimension := mf.dimension, embedding_model := mf.embedding_model,
             index := idx, metadata := md })
  | _, _, _ => ([], .error .artifactsMissing)

/-! ## Text cleaning — `ingest.py`, `_clean_text` (lines 39–43)

Python:
```
text = raw.replace(".-", "-")
text = text.replace("\r", " ").replace("\n", " ")
text = re.sub(r"\s+", " ", text)
return text.strip()
```
Characters are processed as `List Char`.  `Char.isWhitespace` (space, tab,
CR, LF) stands in for the regex class `\s`. -/

/-- Python `str.replace(".-", "-")`: left-to-right, non-overlapping. -/
def replaceDotDash : List Char → List Char
  | '.' :: '-' :: rest => '-' :: replaceDotDash rest
  | c :: rest => c :: replaceDotDash rest
  | [] => []

/-- The two single-character replaces `\r → " "` and `\n → " "`. -/
def replaceCRLF (l : List Char) : List Char :=
  (l.map fun c => if c = '\r' then ' ' else c).map fun c =>
    if c = '\n' then ' ' else c

/-- `re.sub(r"\s+", " ", text)`: every maximal run of whitespace becomes a
single space. -/
def collapseWs : List Char → List Char
  | [] => []
  | c :: cs =>
    if c.isWhitespace then ' ' :: collapseWs (cs.dropWhile Char.isWhitespace)
    else c :: collapseWs cs
termination_by l => l.length
decreasing_by
  · simp only [List.length_cons]
    exact Nat.lt_succ_of_le (List.dropWhile_suffix _).sublist.length_le
  · simp

/-- Python `str.strip()`. -/
def stripChars (l : List Char) : List Char :=
  ((l.dropWhile Char.isWhitespace).reverse.dropWhile Char.isWhitespace).reverse

def clean_text (raw : String) : String :=
  String.mk (stripChars (collapseWs (replaceCRLF (replaceDotDash raw.toList))))

/-! ## Word splitting — `ingest.py`, `_chunk_words` line 47: `text.split()`

Python `str.split()` with no argument: split on runs of whitespace,
discarding empty pieces. -/

def pySplitChars : List Char → List (List Char)
  | [] => []
  | c :: cs =>
    if c.isWhitespace then pySplitChars cs
    else (c :: cs.takeWhile (fun x => !x.isWhitespace)) ::
      pySplitChars (cs.dropWhile (fun x => !x.isWhitespace))
termination_by l => l.length
decreasing_by
  · simp
  · simp only [List.length_cons]
    exact Nat.lt_succ_of_le (List.dropWhile_suffix _).sublist.length_le

def pySplit (s : String) : List String :=
  (pySplitChars s.toList).map String.mk

/-! ## Windowing — `ingest.py`, `_chunk_words` (lines 46–62)

Python:
```
words = text.split()
if not words:
    return
step = max(max_words - overlap, 1)
total = len(words)
start = 0
while start < total:
    end = min(total, start + max_words)
    chunk_words = words[start:end]
    chunk_text = " ".join(chunk_words).strip()
    if chunk_text:
        yield chunk_text
    if end == total:
        break
    start += step
```
The loop is modelled on the suffix `words[start:]` (`remaining`): the loop
guard `start < total` is `remaining ≠ []`, the break condition
`end == total` is `remaining.length ≤ max_words`, and `start += step`
drops `step` elements.  The guard `if chunk_text:` is modelled as the
window being non-empty, which for words produced by `split` (non-empty,
whitespace-free) is equivalent. -/

def chunkWindows {α : Type} (maxWords overlap : Nat) (remaining : List α) :
    List (List α) :=
  if remaining.isEmpty then []
  else
    let window := remaining.take maxWords
    let rest :=
      if remaining.length ≤ maxWords then []
      else chunkWindows maxWords overlap
        (remaining.drop (max (maxWords - overlap) 1))
    if window.isEmpty then rest else window :: rest
termination_by remaining.length
decreasing_by
  simp only [List.length_drop]
  rename_i hne _
  simp only [List.isEmpty_eq_true] at hne
  have h1 : 1 ≤ max (maxWords - overlap) 1 := Nat.le_max_right _ _
  have h3 : 0 < remaining.length := List.length_pos.mpr hne
  exact Nat.sub_lt h3 h1

/-- Python `" ".join(words)` at the character level. -/
def joinWords : List (List Char) → List Char
  | [] => []
  | [w] => w
  | w :: w2 :: rest => w ++ ' ' :: joinWords (w2 :: rest)

/-- `_chunk_words` as a whole: split the text into words, window the
words, join each window with single spaces.  (`" ".join(ws).strip()` is
`" ".join(ws)` for whitespace-free non-empty words.) -/
def chunk_words (text : String) (maxWords overlap : Nat) : List String :=
  (chunkWindows maxWords overlap (pySplitChars text.toList)).map
    (fun ws => String.mk (joinWords ws))

/-- De-duplicating concatenation of consecutive windows: each window but
the last drops its overlapped tail of `overlap` words before
concatenation (used to state the spec's coverage property). -/
def dedupConcat {α : Type} (overlap : Nat) : List (List α) → List α
  | [] => []
  | [w] => w
  | w :: w2 :: rest => w.take (w.length - overlap) ++ dedupConcat overlap (w2 :: rest)

/-! ## Batching — `embedding.py`, `EmbeddingClient.embed_texts` (lines 21–48)

```
if not texts:
    return []
embeddings = []
batch_size = self.cfg.batch_size
for start in range(0, len(texts), batch_size):
    batch = texts[start : start + batch_size]
    ... one service call (retry loop modelled by `retryBatch`) ...
    embeddings.extend([item.embedding for item in response.data])
return embeddings
```
Here the success path is modelled: the service is a function from a batch
to its vectors, and the result also counts the number of service calls.
`range(0, n, 0)` is a `ValueError` in Python, so the step is guarded with
`max batch_size 1` for totality; all theorems assume `1 ≤ batch_size`,
where the guard is the identity. -/

def embedLoop (svc : List String → List (List ℚ)) (batchSize : Nat)
    (remaining : List String) : List (List ℚ) × Nat :=
  if remaining.isEmpty then ([], 0)
  else
    let batch := remaining.take batchSize
    let r := embedLoop svc batchSize (remaining.drop (max batchSize 1))
    (svc batch ++ r.1, r.2 + 1)
termination_by remaining.length
decreasing_by
  simp only [List.length_drop]
  rename_i hne
  simp only [List.isEmpty_eq_true] at hne
  have h1 : 1 ≤ max batchSize 1 := Nat.le_max_right _ _
  have h2 : 0 < remaining.length := List.length_pos.mpr hne
  omega

def embed_texts (svc : List String → List (List ℚ)) (batchSize : Nat)
    (texts : List String) : List (List ℚ) × Nat :=
  if texts.isEmpty then ([], 0) else embedLoop svc batchSize texts

/-! ## Metadata store serialization — `ingest.py` lines 138–148 and
`vector_store.py`, `VectorStore._load_metadata` (lines 41–46)

The builder writes, per chunk, `orjson.dumps(record)` followed by `b"\n"`;
the loader iterates the file line by line and parses each line as JSON.
JSON serialization is modelled concretely for the record shape the code
writes (`{int_id, chunk_id, source, page, content}`, in that key order,
which `orjson` preserves): numbers in decimal, strings with the JSON
escapes for backslash, quote, newline, carriage return and tab (the
characters relevant to this corpus; `orjson` additionally escapes other
control characters).  The loader model splits on `b"\n"` exactly as
Python's binary-file line iteration does, and parses each line; the
trailing newline that Python keeps on each line is accounted for by the
splitter (JSON parsing ignores it). -/

def lit (s : String) : List Char := s.toList

def digitChar (d : Nat) : Char :=
  match d with
  | 0 => '0' | 1 => '1' | 2 => '2' | 3 => '3' | 4 => '4'
  | 5 => '5' | 6 => '6' | 7 => '7' | 8 => '8' | 9 => '9'
  | _ => '*'

def digitVal (c : Char) : Nat := c.toNat - 48

/-- Decimal digits of `n`, least significant first. -/
def natDigitsRev (n : Nat) : List Nat :=
  if n = 0 then [] else n % 10 :: natDigitsRev (n / 10)
termination_by n
decreasing_by exact Nat.div_lt_self (Nat.pos_of_ne_zero (by assumption)) (by omega)

/-- Decimal representation of a natural number. -/
def encodeNat (n : Nat) : List Char :=
  if n = 0 then ['0'] else ((natDigitsRev n).map digitChar).reverse

/-- Parse a decimal number: the JSON parser's number production,
restricted to the non-negative integers this format contains. -/
def parseNat (l : List Char) : Option (Nat × List Char) :=
  let ds := l.takeWhile Char.isDigit
  if ds.isEmpty then none
  else some (ds.foldl (fun a c => a * 10 + digitVal c) 0, l.dropWhile Char.isDigit)

def escapeChar (c : Char) : List Char :=
  if c = '\\' then ['\\', '\\']
  else if c = '"' then ['\\', '"']
  else if c = '\n' then ['\\', 'n']
  else if c = '\r' then ['\\', 'r']
  else if c = '\t' then ['\\', 't']
  else [c]

/-- JSON string-body serialization (the part between the quotes). -/
def escapeString (s : List Char) : List Char := (s.map escapeChar).flatten

def unescapeChar (c : Char) : Option Char :=
  if c = '\\' then some '\\'
  else if c = '"' then some '"'
  else if c = 'n' then some '\n'
  else if c = 'r' then some '\r'
  else if c = 't' then some '\t'
  else none

/-- Parse a JSON string body up to and including the closing quote,
returning the decoded content and the remaining input. -/
def parseJsonString : List Char → Option (List Char × List Char)
  | [] => none
  | c :: rest =>
    if c = '"' then some ([], rest)
    else if c = '\\' then
      match rest with
      | [] => none
      | e :: rest2 =>
        match unescapeChar e, parseJsonString rest2 with
        | some d, some (s, r) => some (d :: s, r)
        | _, _ => none
    else
      match parseJsonString rest with
      | some (s, r) => some (c :: s, r)
      | none => none

/-- Expect a literal prefix; return the input after it. -/
def expect : List Char → List Char → Option (List Char)
  | [], l => some l
  | _ :: _, [] => none
  | p :: ps, c :: cs => if c = p then expect ps cs else none

/-- `orjson.dumps(record)` for one metadata record (`ingest.py` lines
140–147): keys in dict insertion order. -/
def encodeRecord (r : MetaRecord) : List Char :=
  lit "\x7b\"int_id\":" ++ encodeNat r.int_id ++
  lit ",\"chunk_id\":\"" ++ escapeString r.chunk_id.toList ++ ['"'] ++
  lit ",\"source\":\"" ++ escapeString r.source.toList ++ ['"'] ++
  lit ",\"page\":" ++ encodeNat r.page ++
  lit ",\"content\":\"" ++ escapeString r.content.toList ++ ['"'] ++
  lit "\x7d"

/-- `orjson.loads` for one line of the metadata store, specialised to the
record shape the builder writes. -/
def decodeRecord (l : List Char) : Option MetaRecord := do
  let l ← expect (lit "\x7b\"int_id\":") l
  let (iid, l) ← parseNat l
  let l ← expect (lit ",\"chunk_id\":\"") l
  let (cid, l) ← parseJsonString l
  let l ← expect (lit ",\"source\":\"") l
  let (src, l) ← parseJsonString l
  let l ← expect (lit ",\"page\":") l
  let (pg, l) ← parseNat l
  let l ← expect (lit ",\"content\":\"") l
  let (cont, l) ← parseJsonString l
  let l ← expect (lit "\x7d") l
  if l.isEmpty then
    some ⟨iid, String.mk cid, String.mk src, pg, String.mk cont⟩
  else none

/-- The records the builder writes (`ingest.py` lines 139–146):
`int_id` is the chunk's 0-based position. -/
def metadataRecords (chunks : List Chunk) : List MetaRecord :=
  chunks.enum.map fun ic =>
    { int_id := ic.1, chunk_id := ic.2.chunk_id, source := ic.2.source,
      page := ic.2.page, content := ic.2.content }

/-- The bytes of the metadata store file: each serialized record followed
by `b"\n"` (`ingest.py` lines 138–148). -/
def writeMetadata (records : List MetaRecord) : List Char :=
  (records.map fun r => encodeRecord r ++ ['\n']).flatten

/-- Python binary-file line iteration: lines are terminated by `b"\n"`;
the terminator is dropped here (the JSON parse of a line ignores it), and
a final unterminated line is yielded if non-empty. -/
def splitLinesAux : List Char → List Char → List (List Char)
  | acc, [] => if acc.isEmpty then [] else [acc.reverse]
  | acc, c :: rest =>
    if c = '\n' then acc.reverse :: splitLinesAux [] rest
    else splitLinesAux (c :: acc) rest

def splitLines (l : List Char) : List (List Char) := splitLinesAux [] l

/-- The loader's accumulation loop: `for line in fh:
metadata.append(orjson.loads(line))`, one parsed record per line in file
order; a malformed line is a load failure. -/
def load_metadata_loop : List (List Char) → Option (List MetaRecord)
  | [] => some []
  | line :: rest => do
      let r ← decodeRecord line
      let rs ← load_metadata_loop rest
      some (r :: rs)

/-- `VectorStore._load_metadata`: split the file into lines and parse each
line in order. -/
def load_metadata (file : List Char) : Option (List MetaRecord) :=
  load_metadata_loop (splitLines file)

/-! # Helper lemmas -/

/-- The retry loop makes at most `6 - attempt` service calls when entered
with counter `attempt ≤ 5`. -/
theorem retryBatch_calls_le (svc : Nat → SvcResult) :
    ∀ n a, 6 - a = n → a ≤ 5 → (retryBatch svc a).calls + a ≤ 6 := by
  intro n
  induction n with
  | zero => intro a h1 h2; omega
  | succ n ih =>
    intro a h1 h2
    rw [retryBatch]
    cases hsvc : svc a with
    | ok vecs => simp; omega
    | apiError => simp; omega
    | rateLimit =>
      simp only
      by_cases hc : a + 1 > 5
      · simp [hc]; omega
      · simp only [hc, if_false]
        have := ih (a + 1) (by omega) (by omega)
        omega
    | timeout =>
      simp only
      by_cases hc : a + 1 > 5
      · simp [hc]; omega
      · simp only [hc, if_false]
        have := ih (a + 1) (by omega) (by omega)
        omega

/-- Against a service that signals rate-limit or timeout on every call,
the retry loop entered at counter `a ≤ 5` makes `6 - a` calls, sleeps
`min(2^attempt, 30)` before each retry and before the final failure, and
fails with the rate-limit-exceeded error. -/
theorem retryBatch_always_failing (svc : Nat → SvcResult)
    (h : ∀ b, svc b = .rateLimit ∨ svc b = .timeout) :
    ∀ n a, 6 - a = n → a ≤ 5 →
    retryBatch svc a =
      ⟨.rateLimitExceeded, 6 - a,
       (List.range (6 - a)).map fun i => min (2 ^ (a + i)) 30⟩ := by
  intro n
  induction n with
  | zero => intro a h1 h2; omega
  | succ n ih =>
    intro a h1 h2
    have hrange : (List.range (6 - a)).map (fun i => min (2 ^ (a + i)) 30) =
        min (2 ^ a) 30 ::
          (List.range (6 - (a + 1))).map fun i => min (2 ^ (a + 1 + i)) 30 := by
      have h6 : 6 - a = (6 - (a + 1)) + 1 := by omega
      rw [h6, List.range_succ_eq_map, List.map_cons, List.map_map]
      refine congrArg₂ List.cons (by rw [Nat.add_zero]) ?_
      refine List.map_congr_left fun i _ => ?_
      simp only [Function.comp_apply]
      congr 2
      omega
    rw [retryBatch]
    by_cases hc : a = 5
    · subst hc
      rcases h 5 with ha | ha <;> rw [ha] <;> simp <;> decide
    · have ht := ih (a + 1) (by omega) (by omega)
      have hno : ¬ (a + 1 > 5) := by omega
      have hcalls : 6 - (a + 1) + 1 = 6 - a := by omega
      rcases h a with ha | ha <;> rw [ha] <;>
        simp only [hno, if_false, ht, hrange, RetryTrace.mk.injEq] <;>
        exact ⟨trivial, hcalls, trivial⟩

/-- When each service call returns one vector per input text in request
order, the batching loop returns the per-text vectors concatenated in the
original input order. -/
theorem embedLoop_map (svc : List String → List (List ℚ)) (f : String → List ℚ)
    (hsvc : ∀ b, svc b = b.map f) (bs : Nat) (hbs : 1 ≤ bs) :
    ∀ n (texts : List String), texts.length = n →
    (embedLoop svc bs texts).1 = texts.map f := by
  intro n
  induction n using Nat.strong_induction_on with
  | _ n ih =>
    intro texts hl
    rw [embedLoop]
    cases texts with
    | nil => simp
    | cons t ts =>
      simp only [List.isEmpty_cons, if_false, Bool.false_eq_true]
      have hmax : max bs 1 = bs := by omega
      rw [hmax, hsvc]
      have hdrop : ((t :: ts).drop bs).length < n := by
        simp only [List.length_drop]
        simp only [← hl, List.length_cons]
        omega
      rw [ih _ hdrop _ rfl, ← List.map_append, List.take_append_drop]

/-! ## Windowing lemmas -/

theorem chunkWindows_nil {α : Type} (mw ov : Nat) :
    chunkWindows mw ov ([] : List α) = [] := by
  rw [chunkWindows]; rfl

/-- The final (possibly short) window: when the word list fits in one
window the segmenter emits it whole, exactly once. -/
theorem chunkWindows_of_le {α : Type} (mw ov : Nat) (l : List α)
    (hne : l ≠ []) (hle : l.length ≤ mw) :
    chunkWindows mw ov l = [l] := by
  rw [chunkWindows]
  simp [hne, hle, List.take_of_length_le hle]

/-- The stepping case: a full window is emitted and the walk continues
`max_words - overlap` words further on. -/
theorem chunkWindows_of_gt {α : Type} (mw ov : Nat) (l : List α)
    (hov : ov < mw) (hgt : mw < l.length) :
    chunkWindows mw ov l =
      l.take mw :: chunkWindows mw ov (l.drop (mw - ov)) := by
  have hne : l ≠ [] := by
    intro h; subst h; simp at hgt
  have h2 : ¬ (l.length ≤ mw) := by omega
  have hmax : max (mw - ov) 1 = mw - ov := by omega
  have h3 : l.take mw ≠ [] := by
    simp only [ne_eq, List.take_eq_nil_iff]
    push_neg
    exact ⟨by omega, hne⟩
  rw [chunkWindows]
  simp [hne, h2, hmax, h3]

theorem chunkWindows_ne_nil {α : Type} (mw ov : Nat) (l : List α)
    (hne : l ≠ []) (hov : ov < mw) :
    chunkWindows mw ov l ≠ [] := by
  by_cases hle : l.length ≤ mw
  · rw [chunkWindows_of_le mw ov l hne hle]; simp
  · rw [chunkWindows_of_gt mw ov l hov (by omega)]; simp

/-- Every emitted window has at most `max_words` words. -/
theorem chunkWindows_length_le {α : Type} (mw ov : Nat) (hov : ov < mw) :
    ∀ n (l : List α), l.length = n →
    ∀ w ∈ chunkWindows mw ov l, w.length ≤ mw := by
  intro n
  induction n using Nat.strong_induction_on with
  | _ n ih =>
    intro l hl w hw
    rcases eq_or_ne l [] with hnil | hne
    · subst hnil; rw [chunkWindows_nil] at hw; cases hw
    by_cases hle : l.length ≤ mw
    · rw [chunkWindows_of_le mw ov l hne hle] at hw
      simp only [List.mem_singleton] at hw
      subst hw; exact hle
    · rw [chunkWindows_of_gt mw ov l hov (by omega)] at hw
      rcases List.mem_cons.mp hw with hw | hw
      · subst hw; simp
      · have hdrop : (l.drop (mw - ov)).length < n := by
          simp only [List.length_drop]; omega
        exact ih _ hdrop _ rfl w hw

/-- Every emitted window except the last has exactly `max_words` words. -/
theorem chunkWindows_dropLast_length {α : Type} (mw ov : Nat) (hov : ov < mw) :
    ∀ n (l : List α), l.length = n →
    ∀ w ∈ (chunkWindows mw ov l).dropLast, w.length = mw := by
  intro n
  induction n using Nat.strong_induction_on with
  | _ n ih =>
    intro l hl w hw
    rcases eq_or_ne l [] with hnil | hne
    · subst hnil; rw [chunkWindows_nil] at hw; cases hw
    by_cases hle : l.length ≤ mw
    · rw [chunkWindows_of_le mw ov l hne hle] at hw
      simp at hw
    · rw [chunkWindows_of_gt mw ov l hov (by omega)] at hw
      have hrest : chunkWindows mw ov (l.drop (mw - ov)) ≠ [] := by
        apply chunkWindows_ne_nil _ _ _ _ hov
        intro h
        have := congrArg List.length h
        simp only [List.length_drop, List.length_nil] at this
        omega
      rw [List.dropLast_cons_of_ne_nil hrest] at hw
      rcases List.mem_cons.mp hw with hw | hw
      · subst hw; simp; omega
      · have hdrop : (l.drop (mw - ov)).length < n := by
          simp only [List.length_drop]; omega
        exact ih _ hdrop _ rfl w hw

/-- No emitted window is empty. -/
theorem chunkWindows_mem_ne_nil {α : Type} (mw ov : Nat) (hov : ov < mw) :
    ∀ n (l : List α), l.length = n →
    ∀ w ∈ chunkWindows mw ov l, w ≠ [] := by
  intro n
  induction n using Nat.strong_induction_on with
  | _ n ih =>
    intro l hl w hw
    rcases eq_or_ne l [] with hnil | hne
    · subst hnil; rw [chunkWindows_nil] at hw; cases hw
    by_cases hle : l.length ≤ mw
    · rw [chunkWindows_of_le mw ov l hne hle] at hw
      simp only [List.mem_singleton] at hw
      subst hw; exact hne
    · rw [chunkWindows_of_gt mw ov l hov (by omega)] at hw
      rcases List.mem_cons.mp hw with hw | hw
      · subst hw
        intro h
        have := congrArg List.length h
        simp only [List.length_take, List.length_nil] at this
        omega
      · have hdrop : (l.drop (mw - ov)).length < n := by
          simp only [List.length_drop]; omega
        exact ih _ hdrop _ rfl w hw

/-- Segmenter coverage: dropping the overlapped tail of every window but
the last and concatenating reconstructs the original word sequence. -/
theorem chunkWindows_dedup {α : Type} (mw ov : Nat) (hov : ov < mw) :
    ∀ n (l : List α), l.length = n →
    dedupConcat ov (chunkWindows mw ov l) = l := by
  intro n
  induction n using Nat.strong_induction_on with
  | _ n ih =>
    intro l hl
    rcases eq_or_ne l [] with hnil | hne
    · subst hnil; rw [chunkWindows_nil]; rfl
    by_cases hle : l.length ≤ mw
    · rw [chunkWindows_of_le mw ov l hne hle]; rfl
    · rw [chunkWindows_of_gt mw ov l hov (by omega)]
      have hrest : chunkWindows mw ov (l.drop (mw - ov)) ≠ [] := by
        apply chunkWindows_ne_nil _ _ _ _ hov
        intro h
        have := congrArg List.length h
        simp only [List.length_drop, List.length_nil] at this
        omega
      obtain ⟨r, rs, hr⟩ := List.exists_cons_of_ne_nil hrest
      rw [hr]
      show (l.take mw).take ((l.take mw).length - ov) ++ dedupConcat ov (r :: rs) = l
      rw [← hr]
      have hdrop : (l.drop (mw - ov)).length < n := by
        simp only [List.length_drop]; omega
      rw [ih _ hdrop _ rfl]
      have hlen : (l.take mw).length = mw := by simp; omega
      rw [hlen, List.take_take]
      have : min (mw - ov) mw = mw - ov := by omega
      rw [this, List.take_append_drop]

/-! ## Serialization lemmas -/

theorem expect_append (pat : List Char) : ∀ rest, expect pat (pat ++ rest) = some rest := by
  induction pat with
  | nil => intro rest; rfl
  | cons p ps ih => intro rest; simp [expect, ih]

theorem span_append (p : Char → Bool) :
    ∀ (l1 l2 : List Char), (∀ c ∈ l1, p c = true) →
    (∀ c ∈ l2.head?, p c = false) →
    (l1 ++ l2).takeWhile p = l1 ∧ (l1 ++ l2).dropWhile p = l2 := by
  intro l1
  induction l1 with
  | nil =>
    intro l2 _ h2
    cases l2 with
    | nil => simp
    | cons c cs =>
      have := h2 c (by simp)
      simp [List.takeWhile, List.dropWhile, this]
  | cons c cs ih =>
    intro l2 h1 h2
    have hc := h1 c (by simp)
    have := ih l2 (fun x hx => h1 x (by simp [hx])) h2
    simp [List.takeWhile, List.dropWhile, hc, this.1, this.2]

theorem natDigitsRev_lt (n : Nat) : ∀ d ∈ natDigitsRev n, d < 10 := by
  induction n using Nat.strong_induction_on with
  | _ n ih =>
    intro d hd
    rw [natDigitsRev] at hd
    by_cases hn : n = 0
    · simp [hn] at hd
    · simp only [hn, if_false] at hd
      rcases List.mem_cons.mp hd with h | h
      · subst h; exact Nat.mod_lt _ (by omega)
      · exact ih (n / 10) (Nat.div_lt_self (by omega) (by omega)) d h

theorem natDigitsRev_ne_nil (n : Nat) (hn : n ≠ 0) : natDigitsRev n ≠ [] := by
  rw [natDigitsRev]
  simp [hn]

theorem digitChar_isDigit : ∀ d < 10, (digitChar d).isDigit = true := by decide

theorem digitVal_digitChar : ∀ d < 10, digitVal (digitChar d) = d := by decide

theorem foldl_natDigitsRev (n : Nat) :
    ∀ acc, (natDigitsRev n).reverse.foldl (fun a d => a * 10 + d) acc =
      acc * 10 ^ (natDigitsRev n).length + n := by
  induction n using Nat.strong_induction_on with
  | _ n ih =>
    intro acc
    rw [natDigitsRev]
    by_cases hn : n = 0
    · simp [hn]
    · simp only [hn, if_false, List.reverse_cons, List.foldl_append,
        List.length_cons]
      rw [ih (n / 10) (Nat.div_lt_self (by omega) (by omega)) acc]
      simp only [List.foldl_cons, List.foldl_nil]
      have hmod : n % 10 + 10 * (n / 10) = n := Nat.mod_add_div n 10
      ring_nf
      omega

theorem encodeNat_all_digit (n : Nat) : ∀ c ∈ encodeNat n, c.isDigit = true := by
  intro c hc
  unfold encodeNat at hc
  by_cases hn : n = 0
  · simp [hn] at hc; subst hc; decide
  · simp only [hn, if_false, List.mem_reverse, List.mem_map] at hc
    obtain ⟨d, hd, hdc⟩ := hc
    subst hdc
    exact digitChar_isDigit d (natDigitsRev_lt n d hd)

theorem encodeNat_ne_nil (n : Nat) : encodeNat n ≠ [] := by
  unfold encodeNat
  by_cases hn : n = 0
  · simp [hn]
  · simp only [hn, if_false, ne_eq, List.reverse_eq_nil_iff, List.map_eq_nil_iff]
    exact natDigitsRev_ne_nil n hn

theorem foldl_encodeNat (n : Nat) :
    (encodeNat n).foldl (fun a c => a * 10 + digitVal c) 0 = n := by
  unfold encodeNat
  by_cases hn : n = 0
  · simp [hn]; decide
  · simp only [hn, if_false]
    rw [← List.map_reverse, List.foldl_map]
    have hcong : ∀ l : List Nat, (∀ d ∈ l, d < 10) → ∀ acc,
        l.foldl (fun a d => a * 10 + digitVal (digitChar d)) acc =
        l.foldl (fun a d => a * 10 + d) acc := by
      intro l
      induction l with
      | nil => intro _ _; rfl
      | cons d ds ihl =>
        intro h acc
        simp only [List.foldl_cons]
        rw [digitVal_digitChar d (h d (by simp)),
          ihl (fun x hx => h x (by simp [hx]))]
    rw [hcong _ (fun d hd => natDigitsRev_lt n d (List.mem_reverse.mp hd)) 0,
      foldl_natDigitsRev n 0]
    simp

theorem parseNat_encode (n : Nat) (rest : List Char)
    (hrest : ∀ c ∈ rest.head?, c.isDigit = false) :
    parseNat (encodeNat n ++ rest) = some (n, rest) := by
  have hspan := span_append Char.isDigit (encodeNat n) rest
    (encodeNat_all_digit n) hrest
  unfold parseNat
  rw [hspan.1, hspan.2]
  simp only [List.isEmpty_eq_true, encodeNat_ne_nil n, if_false]
  rw [foldl_encodeNat n]

theorem escapeString_nil : escapeString [] = [] := rfl

theorem escapeString_cons (c : Char) (s : List Char) :
    escapeString (c :: s) = escapeChar c ++ escapeString s := by
  simp [escapeString]

theorem parseJsonString_quote (rest : List Char) :
    parseJsonString ('"' :: rest) = some ([], rest) := by
  conv_lhs => rw [parseJsonString.eq_def]
  simp

theorem parseJsonString_backslash (e : Char) (rest : List Char) :
    parseJsonString ('\\' :: e :: rest) =
      match unescapeChar e, parseJsonString rest with
      | some d, some (s, r) => some (d :: s, r)
      | _, _ => none := rfl

theorem parseJsonString_other (c : Char) (rest : List Char)
    (h1 : c ≠ '"') (h2 : c ≠ '\\') :
    parseJsonString (c :: rest) =
      match parseJsonString rest with
      | some (s, r) => some (c :: s, r)
      | none => none := by
  conv_lhs => rw [parseJsonString.eq_def]
  simp only [if_neg h1, if_neg h2]

/-- Parsing a JSON string body recovers exactly the text that was
escaped, leaving the input after the closing quote untouched. -/
theorem parseJsonString_escape :
    ∀ (s rest : List Char),
    parseJsonString (escapeString s ++ '"' :: rest) = some (s, rest) := by
  intro s
  induction s with
  | nil =>
    intro rest
    rw [escapeString_nil, List.nil_append, parseJsonString_quote]
  | cons c cs ih =>
    intro rest
    rw [escapeString_cons, List.append_assoc]
    by_cases h1 : c = '\\'
    · subst h1
      rw [show escapeChar '\\' = ['\\', '\\'] from rfl]
      simp only [List.cons_append, List.nil_append]
      rw [parseJsonString_backslash, ih rest,
        show unescapeChar '\\' = some '\\' from by decide]
    · by_cases h2 : c = '"'
      · subst h2
        rw [show escapeChar '"' = ['\\', '"'] from rfl]
        simp only [List.cons_append, List.nil_append]
        rw [parseJsonString_backslash, ih rest,
          show unescapeChar '"' = some '"' from by decide]
      · by_cases h3 : c = '\n'
        · subst h3
          rw [show escapeChar '\n' = ['\\', 'n'] from rfl]
          simp only [List.cons_append, List.nil_append]
          rw [parseJsonString_backslash, ih rest,
            show unescapeChar 'n' = some '\n' from by decide]
        · by_cases h4 : c = '\r'
          · subst h4
            rw [show escapeChar '\r' = ['\\', 'r'] from rfl]
            simp only [List.cons_append, List.nil_append]
            rw [parseJsonString_backslash, ih rest,
              show unescapeChar 'r' = some '\r' from by decide]
          · by_cases h5 : c = '\t'
            · subst h5
              rw [show escapeChar '\t' = ['\\', 't'] from rfl]
              simp only [List.cons_append, List.nil_append]
              rw [parseJsonString_backslash, ih rest,
                show unescapeChar 't' = some '\t' from by decide]
            · have hesc : escapeChar c = [c] := by
                unfold escapeChar
                rw [if_neg h1, if_neg h2, if_neg h3, if_neg h4, if_neg h5]
              rw [hesc]
              simp only [List.cons_append, List.nil_append]
              rw [parseJsonString_other c _ h2 h1, ih rest]

/-- JSON escaping emits no raw newline: `\n` in the text becomes the
two-character escape. -/
theorem escapeString_no_newline (s : List Char) : '\n' ∉ escapeString s := by
  induction s with
  | nil => simp [escapeString_nil]
  | cons c cs ih =>
    rw [escapeString_cons]
    simp only [List.mem_append]
    rintro (h | h)
    · unfold escapeChar at h
      by_cases h1 : c = '\\'
      · simp [h1] at h
      · by_cases h2 : c = '"'
        · simp [h1, h2] at h
        · by_cases h3 : c = '\n'
          · simp [h1, h2, h3] at h
          · by_cases h4 : c = '\r'
            · simp [h1, h2, h3, h4] at h
            · by_cases h5 : c = '\t'
              · simp [h1, h2, h3, h4, h5] at h
              · simp [h1, h2, h3, h4, h5] at h
                exact h3 h.symm
    · exact ih h

/-- A serialized metadata record contains no raw newline byte. -/
theorem encodeRecord_no_newline (r : MetaRecord) : '\n' ∉ encodeRecord r := by
  unfold encodeRecord
  simp only [List.mem_append]
  rintro (((((((((((((h | h) | h) | h) | h) | h) | h) | h) | h) | h) | h) |
    h) | h) | h)
  · exact absurd h (by decide)
  · have := encodeNat_all_digit r.int_id '\n' h; simp at this
  · exact absurd h (by decide)
  · exact escapeString_no_newline _ h
  · exact absurd h (by decide)
  · exact absurd h (by decide)
  · exact escapeString_no_newline _ h
  · exact absurd h (by decide)
  · exact absurd h (by decide)
  · have := encodeNat_all_digit r.page '\n' h; simp at this
  · exact absurd h (by decide)
  · exact escapeString_no_newline _ h
  · exact absurd h (by decide)
  · exact absurd h (by decide)

/-- Decoding a serialized metadata record recovers it exactly. -/
theorem decodeRecord_encodeRecord (r : MetaRecord) :
    decodeRecord (encodeRecord r) = some r := by
  have hshape : encodeRecord r =
      lit "\x7b\"int_id\":" ++ (encodeNat r.int_id ++ (lit ",\"chunk_id\":\"" ++
        (escapeString r.chunk_id.toList ++ ('"' :: (lit ",\"source\":\"" ++
        (escapeString r.source.toList ++ ('"' :: (lit ",\"page\":" ++
        (encodeNat r.page ++ (lit ",\"content\":\"" ++
        (escapeString r.content.toList ++ ('"' :: lit "\x7d")))))))))))) := by
    unfold encodeRecord
    simp [List.append_assoc]
  unfold decodeRecord
  rw [hshape, expect_append]
  simp only [Option.bind_eq_bind, Option.some_bind]
  rw [parseNat_encode r.int_id _ (by
    intro c hc
    rw [show lit ",\"chunk_id\":\"" = ',' :: lit "\"chunk_id\":\"" from rfl,
      List.cons_append, List.head?_cons] at hc
    simp only [Option.mem_def, Option.some.injEq] at hc
    subst hc; decide)]
  simp only [Option.bind_eq_bind, Option.some_bind]
  rw [expect_append]
  simp only [Option.bind_eq_bind, Option.some_bind]
  rw [parseJsonString_escape]
  simp only [Option.bind_eq_bind, Option.some_bind]
  rw [expect_append]
  simp only [Option.bind_eq_bind, Option.some_bind]
  rw [parseJsonString_escape]
  simp only [Option.bind_eq_bind, Option.some_bind]
  rw [expect_append]
  simp only [Option.bind_eq_bind, Option.some_bind]
  rw [parseNat_encode r.page _ (by
    intro c hc
    rw [show lit ",\"content\":\"" = ',' :: lit "\"content\":\"" from rfl,
      List.cons_append, List.head?_cons] at hc
    simp only [Option.mem_def, Option.some.injEq] at hc
    subst hc; decide)]
  simp only [Option.bind_eq_bind, Option.some_bind]
  rw [expect_append]
  simp only [Option.bind_eq_bind, Option.some_bind]
  rw [parseJsonString_escape]
  simp only [Option.bind_eq_bind, Option.some_bind]
  nth_rewrite 2 [← List.append_nil (lit "\x7d")]
  rw [expect_append]
  simp only [Option.bind_eq_bind, Option.some_bind]
  simp

theorem splitLinesAux_cons_nl (acc rest : List Char) :
    splitLinesAux acc ('\n' :: rest) = acc.reverse :: splitLinesAux [] rest := by
  simp [splitLinesAux]

theorem splitLinesAux_cons (acc : List Char) (c : Char) (rest : List Char)
    (hc : c ≠ '\n') :
    splitLinesAux acc (c :: rest) = splitLinesAux (c :: acc) rest := by
  simp [splitLinesAux, hc]

/-- Scanning one newline-free line with its terminator emits exactly that
line and continues after the terminator. -/
theorem splitLinesAux_line : ∀ (line : List Char), '\n' ∉ line →
    ∀ (acc rest : List Char),
    splitLinesAux acc (line ++ '\n' :: rest) =
      (acc.reverse ++ line) :: splitLinesAux [] rest := by
  intro line
  induction line with
  | nil =>
    intro _ acc rest
    rw [List.nil_append, splitLinesAux_cons_nl, List.append_nil]
  | cons c cs ih =>
    intro h acc rest
    have hc : c ≠ '\n' := fun hh => h (by simp [hh])
    rw [List.cons_append, splitLinesAux_cons acc c _ hc,
      ih (fun hh => h (by simp [hh])) (c :: acc) rest]
    simp

/-- Splitting the concatenation of newline-terminated, newline-free lines
recovers exactly those lines. -/
theorem splitLines_writeback : ∀ (lines : List (List Char)),
    (∀ l ∈ lines, '\n' ∉ l) →
    splitLines ((lines.map fun l => l ++ ['\n']).flatten) = lines := by
  intro lines
  induction lines with
  | nil => intro _; rfl
  | cons l ls ih =>
    intro h
    show splitLinesAux [] _ = l :: ls
    rw [List.map_cons, List.flatten_cons, List.append_assoc,
      List.singleton_append, splitLinesAux_line l (h l (by simp)) [] _]
    have := ih (fun x hx => h x (by simp [hx]))
    unfold splitLines at this
    rw [this]
    simp

theorem load_loop_decode_encode : ∀ records : List MetaRecord,
    load_metadata_loop (records.map encodeRecord) = some records := by
  intro records
  induction records with
  | nil => rfl
  | cons r rs ih =>
    simp [load_metadata_loop, decodeRecord_encodeRecord, ih]

/-- The metadata store written for a record list splits into exactly one
line per record, and loading it back recovers the records. -/
theorem load_metadata_writeMetadata (records : List MetaRecord) :
    splitLines (writeMetadata records) = records.map encodeRecord ∧
    load_metadata (writeMetadata records) = some records := by
  have hsplit : splitLines (writeMetadata records) =
      records.map encodeRecord := by
    unfold writeMetadata
    rw [show records.map (fun r => encodeRecord r ++ ['\n']) =
        (records.map encodeRecord).map (fun l => l ++ ['\n']) from by
      rw [List.map_map]; rfl]
    refine splitLines_writeback _ ?_
    intro l hl
    simp only [List.mem_map] at hl
    obtain ⟨r, _, hr⟩ := hl
    subst hr
    exact encodeRecord_no_newline r
  refine ⟨hsplit, ?_⟩
  unfold load_metadata
  rw [hsplit]
  exact load_loop_decode_encode records

/-! ## Cleaning and chunk-content character lemmas -/

theorem collapseWs_nil : collapseWs [] = [] := by simp [collapseWs]

theorem collapseWs_cons (c : Char) (cs : List Char) :
    collapseWs (c :: cs) =
      if c.isWhitespace then ' ' :: collapseWs (cs.dropWhile Char.isWhitespace)
      else c :: collapseWs cs := by
  simp [collapseWs]

/-- Every character the whitespace-collapse emits is either a single
space or a non-whitespace character of the input. -/
theorem collapseWs_mem : ∀ n (l : List Char), l.length = n →
    ∀ c ∈ collapseWs l, c = ' ' ∨ (c ∈ l ∧ c.isWhitespace = false) := by
  intro n
  induction n using Nat.strong_induction_on with
  | _ n ih =>
    intro l hl c hc
    cases l with
    | nil => rw [collapseWs_nil] at hc; cases hc
    | cons c0 cs =>
      rw [collapseWs_cons] at hc
      by_cases hws : c0.isWhitespace
      · rw [if_pos hws] at hc
        rcases List.mem_cons.mp hc with h | h
        · exact Or.inl h
        · have hlen : (cs.dropWhile Char.isWhitespace).length < n := by
            have := (List.dropWhile_suffix (l := cs)
              (p := Char.isWhitespace)).sublist.length_le
            simp only [← hl, List.length_cons]
            omega
          rcases ih _ hlen _ rfl c h with h' | h'
          · exact Or.inl h'
          · exact Or.inr ⟨by
              have := (List.dropWhile_suffix (l := cs)
                (p := Char.isWhitespace)).sublist.subset h'.1
              simp [this], h'.2⟩
      · rw [if_neg hws] at hc
        rcases List.mem_cons.mp hc with h | h
        · subst h
          exact Or.inr ⟨by simp, by simpa using hws⟩
        · have hlen : cs.length < n := by
            simp only [← hl, List.length_cons]; omega
          rcases ih _ hlen _ rfl c h with h' | h'
          · exact Or.inl h'
          · exact Or.inr ⟨by simp [h'.1], h'.2⟩

theorem stripChars_subset (l : List Char) : ∀ c ∈ stripChars l, c ∈ l := by
  intro c hc
  unfold stripChars at hc
  rw [List.mem_reverse] at hc
  have h1 := (List.dropWhile_suffix
    (l := (l.dropWhile Char.isWhitespace).reverse)
    (p := Char.isWhitespace)).sublist.subset hc
  rw [List.mem_reverse] at h1
  exact (List.dropWhile_suffix (l := l)
    (p := Char.isWhitespace)).sublist.subset h1

theorem replaceCRLF_no_nl (l : List Char) :
    '\n' ∉ replaceCRLF l ∧ '\r' ∉ replaceCRLF l := by
  constructor
  · intro h
    unfold replaceCRLF at h
    rw [List.mem_map] at h
    obtain ⟨b, _, hb⟩ := h
    by_cases hbe : b = '\n'
    · rw [if_pos hbe] at hb; cases hb
    · rw [if_neg hbe] at hb; exact hbe hb
  · intro h
    unfold replaceCRLF at h
    rw [List.mem_map] at h
    obtain ⟨b, hbm, hb⟩ := h
    by_cases hbe : b = '\n'
    · rw [if_pos hbe] at hb; cases hb
    · rw [if_neg hbe] at hb
      subst hb
      rw [List.mem_map] at hbm
      obtain ⟨a, _, ha⟩ := hbm
      by_cases hae : a = '\r'
      · rw [if_pos hae] at ha; cases ha
      · rw [if_neg hae] at ha; exact hae ha

/-- The normalized text contains no newline and no carriage return. -/
theorem clean_text_no_nl (raw : String) :
    '\n' ∉ (clean_text raw).toList ∧ '\r' ∉ (clean_text raw).toList := by
  have hmk : (clean_text raw).toList =
      stripChars (collapseWs (replaceCRLF (replaceDotDash raw.toList))) := rfl
  rw [hmk]
  constructor
  · intro h
    have h1 := stripChars_subset _ _ h
    rcases collapseWs_mem _ _ rfl _ h1 with h2 | h2
    · cases h2
    · exact absurd h2.2 (by decide)
  · intro h
    have h1 := stripChars_subset _ _ h
    rcases collapseWs_mem _ _ rfl _ h1 with h2 | h2
    · cases h2
    · exact absurd h2.2 (by decide)

theorem pySplitChars_nil : pySplitChars [] = [] := by simp [pySplitChars]

theorem pySplitChars_cons (c : Char) (cs : List Char) :
    pySplitChars (c :: cs) =
      if c.isWhitespace then pySplitChars cs
      else (c :: cs.takeWhile (fun x => !x.isWhitespace)) ::
        pySplitChars (cs.dropWhile (fun x => !x.isWhitespace)) := by
  simp [pySplitChars]

/-- Every character of every word produced by `str.split()` is a
non-whitespace character. -/
theorem pySplitChars_not_ws : ∀ n (l : List Char), l.length = n →
    ∀ w ∈ pySplitChars l, ∀ c ∈ w, c.isWhitespace = false := by
  intro n
  induction n using Nat.strong_induction_on with
  | _ n ih =>
    intro l hl w hw c hc
    cases l with
    | nil => rw [pySplitChars_nil] at hw; cases hw
    | cons c0 cs =>
      rw [pySplitChars_cons] at hw
      by_cases hws : c0.isWhitespace
      · rw [if_pos hws] at hw
        have hlen : cs.length < n := by
          simp only [← hl, List.length_cons]; omega
        exact ih _ hlen _ rfl w hw c hc
      · rw [if_neg hws] at hw
        rcases List.mem_cons.mp hw with h | h
        · subst h
          rcases List.mem_cons.mp hc with h' | h'
          · subst h'; simpa using hws
          · have := List.mem_takeWhile_imp h'
            simpa using this
        · have hlen : (cs.dropWhile fun x => !x.isWhitespace).length < n := by
            have := (List.dropWhile_suffix (l := cs)
              (p := fun x => !x.isWhitespace)).sublist.length_le
            simp only [← hl, List.length_cons]
            omega
          exact ih _ hlen _ rfl w h c hc

/-- Every word inside any emitted window comes from the input word
list. -/
theorem chunkWindows_mem_mem {α : Type} (mw ov : Nat) (hov : ov < mw) :
    ∀ n (l : List α), l.length = n →
    ∀ w ∈ chunkWindows mw ov l, ∀ x ∈ w, x ∈ l := by
  intro n
  induction n using Nat.strong_induction_on with
  | _ n ih =>
    intro l hl w hw x hx
    rcases eq_or_ne l [] with hnil | hne
    · subst hnil; rw [chunkWindows_nil] at hw; cases hw
    by_cases hle : l.length ≤ mw
    · rw [chunkWindows_of_le mw ov l hne hle] at hw
      simp only [List.mem_singleton] at hw
      subst hw; exact hx
    · rw [chunkWindows_of_gt mw ov l hov (by omega)] at hw
      rcases List.mem_cons.mp hw with h | h
      · subst h; exact List.mem_of_mem_take hx
      · have hlen : (l.drop (mw - ov)).length < n := by
          simp only [List.length_drop]; omega
        have := ih _ hlen _ rfl w h x hx
        exact List.mem_of_mem_drop this

theorem joinWords_mem : ∀ (ws : List (List Char)) (c : Char),
    c ∈ joinWords ws → c = ' ' ∨ ∃ w ∈ ws, c ∈ w := by
  intro ws
  induction ws with
  | nil => intro c hc; cases hc
  | cons w rest ih =>
    intro c hc
    cases rest with
    | nil =>
      exact Or.inr ⟨w, by simp, hc⟩
    | cons w2 rest2 =>
      rw [show joinWords (w :: w2 :: rest2) =
          w ++ ' ' :: joinWords (w2 :: rest2) from rfl] at hc
      rw [List.mem_append] at hc
      rcases hc with h | h
      · exact Or.inr ⟨w, by simp, h⟩
      · rcases List.mem_cons.mp h with h' | h'
        · exact Or.inl h'
        · rcases ih c h' with h'' | ⟨w', hw', hc'⟩
          · exact Or.inl h''
          · exact Or.inr ⟨w', by simp [hw'], hc'⟩

/-- No chunk the segmenter emits contains a newline: the words of the
normalized text are whitespace-free and windows are joined with single
spaces. -/
theorem chunk_words_no_nl (text : String) (mw ov : Nat) (hov : ov < mw) :
    ∀ s ∈ chunk_words text mw ov, '\n' ∉ s.toList := by
  intro s hs hmem
  unfold chunk_words at hs
  rw [List.mem_map] at hs
  obtain ⟨wsw, hwsw, hws⟩ := hs
  subst hws
  have hmem' : '\n' ∈ joinWords wsw := hmem
  rcases joinWords_mem wsw '\n' hmem' with h | ⟨w, hw, hc⟩
  · exact absurd h (by decide)
  · have hwl : w ∈ pySplitChars text.toList :=
      chunkWindows_mem_mem mw ov hov _ _ rfl wsw hwsw w hw
    have hnw := pySplitChars_not_ws _ _ rfl w hwl '\n' hc
    exact absurd hnw (by decide)

/-- The writer assigns `int_id` equal to each chunk's 0-based position. -/
theorem metadataRecords_int_id (chunks : List Chunk) :
    (metadataRecords chunks).map (fun r => r.int_id) =
      List.range chunks.length := by
  unfold metadataRecords
  rw [List.map_map]
  rw [show ((fun r : MetaRecord => r.int_id) ∘ fun ic : Nat × Chunk =>
      ({ int_id := ic.1, chunk_id := ic.2.chunk_id, source := ic.2.source,
         page := ic.2.page, content := ic.2.content } : MetaRecord)) =
      Prod.fst from rfl]
  exact List.enum_map_fst chunks

/-! # Claim theorems -/

/-- C1: the distance-to-relevance mapping equals
`max(min(1 - d/2, 1.0), 0.0)`; it is monotone non-increasing on `[0, 2]`,
maps `0 ↦ 1` and `2 ↦ 0`, and its value lies in `[0, 1]` for every input
distance. -/
theorem C1_score_properties :
    (∀ d : ℚ, score_from_distance d = max (min (1 - d / 2) 1) 0) ∧
    (∀ d1 d2 : ℚ, 0 ≤ d1 → d1 < d2 → d2 ≤ 2 →
      score_from_distance d2 ≤ score_from_distance d1) ∧
    score_from_distance 0 = 1 ∧
    score_from_distance 2 = 0 ∧
    (∀ d : ℚ, 0 ≤ score_from_distance d ∧ score_from_distance d ≤ 1) := by
  refine ⟨fun d => rfl, ?_, by norm_num [score_from_distance],
    by norm_num [score_from_distance], fun d => ⟨le_max_right _ _, ?_⟩⟩
  · intro d1 d2 _ h12 _
    unfold score_from_distance
    exact max_le_max (min_le_min (by linarith) le_rfl) le_rfl
  · exact max_le (le_trans (min_le_right _ _) le_rfl) (by norm_num)

/-- C1 witness: the monotonicity clause applied at `d1 = 1`, `d2 = 2`. -/
theorem C1_score_properties_witness :
    score_from_distance 2 ≤ score_from_distance 1 :=
  C1_score_properties.2.1 1 2 (by norm_num) (by norm_num) (by norm_num)

/-- C2 counterexample: with configured default 6 and a store of 10 items,
a caller-supplied `top_k = 0` is falsy under `top_k or self.cfg.top_k`, so
the search uses 6 and returns 6 results, not an empty sequence. -/
theorem C2_counterexample_top_k_zero :
    effective_top_k (some 0) 6 = 6 ∧
    search_result_count (some 0) 6 10 = 6 ∧
    search_result_count (some 0) 6 10 ≠ 0 := by decide

/-- C2 amended: an omitted `top_k` uses the configured default, a non-zero
caller-supplied `top_k` is used as given, and a caller-supplied `top_k = 0`
is replaced by the configured default (Python `or` treats `0` as falsy). -/
theorem C2_top_k_amended (cfg k : Int) (hk : k ≠ 0) :
    effective_top_k none cfg = cfg ∧
    effective_top_k (some k) cfg = k ∧
    effective_top_k (some 0) cfg = cfg := by
  refine ⟨rfl, ?_, by simp [effective_top_k]⟩
  simp [effective_top_k, hk]

/-- C2 amended, witness at `cfg = 6`, `k = 3`. -/
theorem C2_top_k_amended_witness :
    effective_top_k none 6 = 6 ∧
    effective_top_k (some 3) 6 = 3 ∧
    effective_top_k (some 0) 6 = 6 :=
  C2_top_k_amended 6 3 (by decide)

/-- C3 counterexample: with zero chunks, `ingest_corpus` returns silently
(printing a warning) and raises no `EmptyCorpusError`. -/
theorem C3_counterexample_zero_chunks :
    ingest_corpus [] [] = (.returnedSilently, ⟨false, false, false⟩) ∧
    (ingest_corpus [] []).1 ≠ .raisedEmptyCorpusError := by
  constructor
  · rfl
  · intro h; simp [ingest_corpus] at h

/-- C3 amended: if ingestion produces zero chunks, the build prints a
warning and returns silently without writing any artifacts (it does not
raise a typed `EmptyCorpusError`). -/
theorem C3_empty_corpus_amended (chunks : List Chunk) (vectors : List (List ℚ))
    (h : chunks = []) :
    ingest_corpus chunks vectors = (.returnedSilently, ⟨false, false, false⟩) := by
  subst h; rfl

/-- C3 amended, witness at the empty chunk list. -/
theorem C3_empty_corpus_amended_witness :
    ingest_corpus [] [] = (.returnedSilently, ⟨false, false, false⟩) :=
  C3_empty_corpus_amended [] [] rfl

/-- C6: if any one of the three persisted artifacts is absent, the Vector
Store constructor fails with the missing-artifacts error having read
nothing (empty read trace); when all three are present, the first read
performed is the manifest. -/
theorem C6_missing_artifacts :
    (∀ d : ArtifactDir,
      d.indexFile = none ∨ d.metadataFile = none ∨ d.infoFile = none →
      vector_store_init d = ([], .error .artifactsMissing)) ∧
    (∀ (d : ArtifactDir) idx md mf,
      d.indexFile = some idx → d.metadataFile = some md → d.infoFile = some mf →
      (vector_store_init d).1.head? = some .readInfo) := by
  constructor
  · rintro ⟨i, m, f⟩ h
    rcases h with h | h | h <;> simp_all <;>
      [skip; cases i <;> simp [vector_store_init];
       cases i <;> cases m <;> simp [vector_store_init]]
    rfl
  · rintro ⟨i, m, f⟩ idx md mf h1 h2 h3
    simp_all [vector_store_init]

/-- C6 witness: a directory missing the metadata store fails fast with no
reads; a complete directory reads the manifest first. -/
theorem C6_missing_artifacts_witness :
    vector_store_init ⟨some ⟨3, 2⟩, none, some ⟨3, "m", "angular", 2⟩⟩ =
      ([], .error .artifactsMissing) ∧
    (vector_store_init ⟨some ⟨3, 2⟩, some [], some ⟨3, "m", "angular", 0⟩⟩).1.head? =
      some .readInfo :=
  ⟨C6_missing_artifacts.1 _ (Or.inr (Or.inl rfl)),
   C6_missing_artifacts.2 _ ⟨3, 2⟩ [] ⟨3, "m", "angular", 0⟩ rfl rfl rfl⟩

/-- C5 counterexample: a directory whose manifest claims dimension 4 and
vector count 5 over an index file of dimension 3 and a metadata store of 1
record loads successfully; no `CorruptStoreError` cross-check exists. -/
theorem C5_counterexample_no_crosscheck :
    (vector_store_init ⟨some ⟨3, 7⟩, some [⟨0, "c1", "s.pdf", 1, "x"⟩],
        some ⟨4, "m", "angular", 5⟩⟩).2 =
      .ok ⟨4, "m", ⟨3, 7⟩, [⟨0, "c1", "s.pdf", 1, "x"⟩]⟩ ∧
    (vector_store_init ⟨some ⟨3, 7⟩, some [⟨0, "c1", "s.pdf", 1, "x"⟩],
        some ⟨4, "m", "angular", 5⟩⟩).2 ≠ .error .corruptStore ∧
    (⟨4, "m", "angular", 5⟩ : Manifest).dimension ≠ (⟨3, 7⟩ : IndexData).dim ∧
    (⟨4, "m", "angular", 5⟩ : Manifest).vector_count ≠
      ([⟨0, "c1", "s.pdf", 1, "x"⟩] : List MetaRecord).length := by
  refine ⟨rfl, ?_, by decide, by decide⟩
  intro h; simp [vector_store_init] at h

/-- C4 counterexample: against a service that rate-limits every call, the
retry loop for one batch makes 6 service attempts in total (the initial
attempt plus 5 retries) before failing — not at most 5 as claimed — with
backoff delays `min(2^attempt, 30)` for attempts 0..5. -/
theorem C4_counterexample_six_attempts :
    retryBatch (fun _ => .rateLimit) 0 =
      ⟨.rateLimitExceeded, 6, [1, 2, 4, 8, 16, 30]⟩ ∧
    ¬ (retryBatch (fun _ => .rateLimit) 0).calls ≤ 5 := by
  have h : retryBatch (fun _ => .rateLimit) 0 =
      ⟨.rateLimitExceeded, 6, [1, 2, 4, 8, 16, 30]⟩ := by
    simp [retryBatch]
  exact ⟨h, by rw [h]; decide⟩

/-- C4 amended: on rate-limit or timeout the batch is retried with backoff
delay `min(2^attempt, 30)`, making at most 6 attempts in total (the
initial attempt plus up to 5 retries); exhausting the retries fails with
the rate-limit-exceeded error after sleeping
`[1, 2, 4, 8, 16, 30]`; any other service error fails immediately as the
service error with no retry, and a successful call returns its vectors
with a single attempt. -/
theorem C4_retry_amended :
    (∀ svc : Nat → SvcResult, (retryBatch svc 0).calls ≤ 6) ∧
    (∀ svc : Nat → SvcResult,
      (∀ b, svc b = .rateLimit ∨ svc b = .timeout) →
      retryBatch svc 0 = ⟨.rateLimitExceeded, 6, [1, 2, 4, 8, 16, 30]⟩) ∧
    (∀ svc : Nat → SvcResult, svc 0 = .apiError →
      retryBatch svc 0 = ⟨.serviceError, 1, []⟩) ∧
    (∀ (svc : Nat → SvcResult) vecs, svc 0 = .ok vecs →
      retryBatch svc 0 = ⟨.ok vecs, 1, []⟩) := by
  refine ⟨fun svc => ?_, fun svc h => ?_, fun svc h => ?_, fun svc vecs h => ?_⟩
  · have := retryBatch_calls_le svc 6 0 rfl (by omega)
    omega
  · have := retryBatch_always_failing svc h 6 0 rfl (by omega)
    rw [this]
    decide
  · rw [retryBatch, h]
  · rw [retryBatch, h]

/-- C4 amended, witness: an always-timing-out service exhausts 6 attempts;
an immediately erroring service makes exactly one. -/
theorem C4_retry_amended_witness :
    retryBatch (fun _ => .timeout) 0 =
      ⟨.rateLimitExceeded, 6, [1, 2, 4, 8, 16, 30]⟩ ∧
    retryBatch (fun _ => .apiError) 0 = ⟨.serviceError, 1, []⟩ :=
  ⟨C4_retry_amended.2.1 _ (fun _ => Or.inr rfl),
   C4_retry_amended.2.2.1 _ rfl⟩

/-- C5 amended: load performs no cross-check between the manifest and the
physical artifacts — whenever all three files are present it succeeds,
taking dimension and model from the manifest, regardless of any mismatch
with the index file's dimension or the metadata record count; the code
never reports a `CorruptStoreError`. -/
theorem C5_load_amended (d : ArtifactDir) (idx : IndexData)
    (md : List MetaRecord) (mf : Manifest)
    (h1 : d.indexFile = some idx) (h2 : d.metadataFile = some md)
    (h3 : d.infoFile = some mf) :
    (vector_store_init d).2 = .ok ⟨mf.dimension, mf.embedding_model, idx, md⟩ ∧
    (vector_store_init d).2 ≠ .error .corruptStore := by
  obtain ⟨i, m, f⟩ := d
  simp only at h1 h2 h3
  subst h1 h2 h3
  exact ⟨rfl, fun h => by simp [vector_store_init] at h⟩

/-- C5 amended, witness at the mismatched directory of the
counterexample's shape (dimension 4 vs 3, count 5 vs 1). -/
theorem C5_load_amended_witness :
    (vector_store_init ⟨some ⟨3, 7⟩, some [⟨0, "c2", "t.pdf", 2, "y"⟩],
        some ⟨4, "mm", "angular", 5⟩⟩).2 =
      .ok ⟨4, "mm", ⟨3, 7⟩, [⟨0, "c2", "t.pdf", 2, "y"⟩]⟩ ∧
    (vector_store_init ⟨some ⟨3, 7⟩, some [⟨0, "c2", "t.pdf", 2, "y"⟩],
        some ⟨4, "mm", "angular", 5⟩⟩).2 ≠ .error .corruptStore :=
  C5_load_amended
    ⟨some ⟨3, 7⟩, some [⟨0, "c2", "t.pdf", 2, "y"⟩], some ⟨4, "mm", "angular", 5⟩⟩
    ⟨3, 7⟩ [⟨0, "c2", "t.pdf", 2, "y"⟩] ⟨4, "mm", "angular", 5⟩ rfl rfl rfl

/-- C7: for a batch size ≥ 1 and a service returning one vector per input
in request order, `embed_texts` returns exactly one vector per input text
in the original input order regardless of batch boundaries, and the empty
input returns an empty sequence with zero service calls. -/
theorem C7_embed_order (svc : List String → List (List ℚ)) (f : String → List ℚ)
    (bs : Nat) (hbs : 1 ≤ bs) (hsvc : ∀ b, svc b = b.map f)
    (texts : List String) :
    (embed_texts svc bs texts).1 = texts.map f ∧
    (embed_texts svc bs texts).1.length = texts.length ∧
    embed_texts svc bs [] = ([], 0) := by
  have hmain : (embed_texts svc bs texts).1 = texts.map f := by
    unfold embed_texts
    cases texts with
    | nil => simp
    | cons t ts =>
      simp only [List.isEmpty_cons, if_false, Bool.false_eq_true]
      exact embedLoop_map svc f hsvc bs hbs _ (t :: ts) rfl
  exact ⟨hmain, by rw [hmain]; simp, rfl⟩

/-- C7 witness: three texts embedded with batch size 2 yield one vector
each, in input order, across the batch boundary. -/
theorem C7_embed_order_witness :
    (embed_texts (fun b => b.map fun s => [(s.length : ℚ)]) 2
        ["a", "bb", "ccc"]).1 =
      ["a", "bb", "ccc"].map (fun s => [(s.length : ℚ)]) ∧
    embed_texts (fun b => b.map fun s => [(s.length : ℚ)]) 2 [] = ([], 0) :=
  ⟨(C7_embed_order _ (fun s => [(s.length : ℚ)]) 2 (by omega) (fun _ => rfl)
      ["a", "bb", "ccc"]).1,
   (C7_embed_order _ (fun s => [(s.length : ℚ)]) 2 (by omega) (fun _ => rfl)
      ["a", "bb", "ccc"]).2.2⟩

/-- C8: with `max_words > 0` and `overlap < max_words`, every window the
segmenter emits has at most `max_words` words and every window but
possibly the last has exactly `max_words`; a non-empty word list shorter
than `max_words` yields exactly one window holding all its words; the
empty text yields no chunks. -/
theorem C8_window_size (mw ov : Nat) (_hmw : 0 < mw) (hov : ov < mw) :
    (∀ (words : List (List Char)) w, w ∈ chunkWindows mw ov words →
      w.length ≤ mw) ∧
    (∀ (words : List (List Char)) w, w ∈ (chunkWindows mw ov words).dropLast →
      w.length = mw) ∧
    (∀ words : List (List Char), words ≠ [] → words.length < mw →
      chunkWindows mw ov words = [words]) ∧
    chunk_words "" mw ov = [] := by
  refine ⟨fun words w hw => chunkWindows_length_le mw ov hov _ words rfl w hw,
    fun words w hw => chunkWindows_dropLast_length mw ov hov _ words rfl w hw,
    fun words hne hlt => chunkWindows_of_le mw ov words hne (by omega), ?_⟩
  show (chunkWindows mw ov (pySplitChars "".toList)).map _ = []
  rw [show pySplitChars "".toList = [] by simp [pySplitChars], chunkWindows_nil]
  rfl

/-- C8 witness at `max_words = 2`, `overlap = 1`: the window ["a","b"] of
a 3-word text is within bound, the non-final window is full, a 1-word text
gives one whole window, and the empty text gives no chunks. -/
theorem C8_window_size_witness :
    (['a'] :: [['b']]).length ≤ 2 ∧
    chunkWindows 2 1 [['a']] = [[['a']]] ∧
    chunk_words "" 2 1 = [] := by
  have h := C8_window_size 2 1 (by omega) (by omega)
  refine ⟨?_, h.2.2.1 [['a']] (by simp) (by simp), h.2.2.2⟩
  exact h.1 [['a'], ['b'], ['c']] (['a'] :: [['b']])
    (by rw [chunkWindows_of_gt 2 1 _ (by omega) (by simp)]; simp)

/-- C9: with `overlap < max_words`, concatenating the segmenter's windows
while dropping each non-final window's overlapped tail reconstructs the
original word sequence; no emitted window is empty; and a word list whose
length is exactly `max_words` (the final window aligned with the corpus
end) is emitted as one single window — never duplicated. -/
theorem C9_coverage (mw ov : Nat) (hov : ov < mw) :
    (∀ words : List (List Char),
      dedupConcat ov (chunkWindows mw ov words) = words) ∧
    (∀ (words : List (List Char)) w, w ∈ chunkWindows mw ov words →
      w ≠ []) ∧
    (∀ words : List (List Char), words ≠ [] → words.length = mw →
      chunkWindows mw ov words = [words]) :=
  ⟨fun words => chunkWindows_dedup mw ov hov _ words rfl,
   fun words w hw => chunkWindows_mem_ne_nil mw ov hov _ words rfl w hw,
   fun words hne hlen => chunkWindows_of_le mw ov words hne (by omega)⟩

/-- C9 witness at `max_words = 2`, `overlap = 1` on a 3-word text: the
de-duplicated concatenation of the windows is the original word list, and
a text of exactly `max_words` words produces its single aligned window
once. -/
theorem C9_coverage_witness :
    dedupConcat 1 (chunkWindows 2 1 [['a'], ['b'], ['c']]) =
      [['a'], ['b'], ['c']] ∧
    chunkWindows 2 1 [['a'], ['b']] = [[['a'], ['b']]] := by
  have h := C9_coverage 2 1 (by omega)
  exact ⟨h.1 [['a'], ['b'], ['c']], h.2.2 [['a'], ['b']] (by simp) (by simp)⟩

/-- C10: cleaned text carries no newline or carriage return and chunk
contents carry no newline; the metadata store written for `N` chunks
splits into exactly `N` lines, one serialized record per line, in
`int_id` order `0..N-1`; and loading the store back yields exactly the
written records. -/
theorem C10_metadata_roundtrip :
    (∀ chunks : List Chunk,
      splitLines (writeMetadata (metadataRecords chunks)) =
        (metadataRecords chunks).map encodeRecord ∧
      (splitLines (writeMetadata (metadataRecords chunks))).length =
        chunks.length) ∧
    (∀ chunks : List Chunk,
      load_metadata (writeMetadata (metadataRecords chunks)) =
        some (metadataRecords chunks)) ∧
    (∀ chunks : List Chunk,
      (metadataRecords chunks).map (fun r => r.int_id) =
        List.range chunks.length) ∧
    (∀ raw : String,
      '\n' ∉ (clean_text raw).toList ∧ '\r' ∉ (clean_text raw).toList) ∧
    (∀ (raw : String) (mw ov : Nat), ov < mw →
      ∀ s ∈ chunk_words (clean_text raw) mw ov, '\n' ∉ s.toList) := by
  refine ⟨fun chunks => ?_, fun chunks => (load_metadata_writeMetadata _).2,
    metadataRecords_int_id, clean_text_no_nl,
    fun raw mw ov hov => chunk_words_no_nl (clean_text raw) mw ov hov⟩
  refine ⟨(load_metadata_writeMetadata _).1, ?_⟩
  rw [(load_metadata_writeMetadata _).1]
  simp [metadataRecords]

/-- C10 witness: two concrete chunks write a two-line store that loads
back to the written records with ids `[0, 1]`, and the chunk "ab" of the
cleaned text "ab" contains no newline. -/
theorem C10_metadata_roundtrip_witness :
    (splitLines (writeMetadata (metadataRecords
        [⟨"c1", "hello world", "s.pdf", 1⟩, ⟨"c2", "bye", "s.pdf", 2⟩]))).length = 2 ∧
    load_metadata (writeMetadata (metadataRecords
        [⟨"c1", "hello world", "s.pdf", 1⟩, ⟨"c2", "bye", "s.pdf", 2⟩])) =
      some (metadataRecords
        [⟨"c1", "hello world", "s.pdf", 1⟩, ⟨"c2", "bye", "s.pdf", 2⟩]) ∧
    (metadataRecords
        [⟨"c1", "hello world", "s.pdf", 1⟩, ⟨"c2", "bye", "s.pdf", 2⟩]).map
      (fun r => r.int_id) = List.range 2 ∧
    '\n' ∉ ("ab" : String).toList :=
  ⟨(C10_metadata_roundtrip.1 _).2,
   C10_metadata_roundtrip.2.1 _,
   C10_metadata_roundtrip.2.2.1 _,
   by
    have h := C10_metadata_roundtrip.2.2.2.2 "ab" 1 0 (by omega) "ab"
      (by simp [chunk_words, clean_text, replaceDotDash, replaceCRLF,
        collapseWs, stripChars, pySplitChars, chunkWindows, joinWords])
    exact h⟩

end AmbedkarChatbot
